import Mathlib

/-!
Verification development for the Luna canvas core: entity hierarchy,
transform composition, spatial indexing (HitTestSystem / QuadTree),
and the higher-level Canvas object model.

Coordinates are modelled over the rationals: the source uses f32, and
every operation involved (addition, multiplication, comparison) is exact
on the small dyadic values the properties exercise, so the rational model
is a faithful shallow embedding of the arithmetic.

Entity identities (LunaEntityId, NodeId, LunaElementId) are opaque
integer handles in the source and are modelled as Nat.
-/

/-- Axis-aligned bounding box in world space, as built by
BoundingBox.new(vec2 min, vec2 max) in the source: minX/minY is the min
corner and maxX/maxY the max corner. -/
structure BoundingBox where
  minX : ℚ
  minY : ℚ
  maxX : ℚ
  maxY : ℚ
deriving DecidableEq, Repr

/-- Modelled from the spec: point containment for a bounding box (the
QuadTree sources are not in the repository snapshot; section 4.3 of the
spec says query_point returns every entity whose bbox contains the
point). Boundary points count as contained. -/
def containsPoint (b : BoundingBox) (x y : ℚ) : Bool :=
  decide (b.minX ≤ x) && decide (x ≤ b.maxX) && decide (b.minY ≤ y) && decide (y ≤ b.maxY)

/-- Modelled from the spec: rectangle overlap between a bounding box and
a query region given as origin plus width/height (spec section 4.3:
query_region uses rectangle to rectangle overlap). Touching rectangles
count as overlapping. -/
def overlapsRegion (b : BoundingBox) (x y w h : ℚ) : Bool :=
  decide (b.minX ≤ x + w) && decide (x ≤ b.maxX) && decide (b.minY ≤ y + h) && decide (y ≤ b.maxY)

/-- Local transform of an entity relative to its parent, from the spec
data model: position, per-axis scale, and rotation. The rotation angle
(radians, f32 in the source) is represented by the pair of its cosine
and sine, so that the affine action stays within exact arithmetic. -/
structure LocalTransform where
  posX : ℚ
  posY : ℚ
  scaleX : ℚ
  scaleY : ℚ
  rotCos : ℚ
  rotSin : ℚ
deriving DecidableEq, Repr

/-- Modelled from the spec: the ECS state read by HitTestSystem. The
HierarchyComponent is its parent map; the TransformComponent is its
local-transform map; fuel bounds the ancestor walk (the source relies on
the forest/acyclicity invariant of section 3 for termination, which the
fuel makes explicit). -/
structure LunaEcs where
  parent : Nat → Option Nat
  transforms : Nat → Option LocalTransform
  fuel : Nat

/-- Modelled from the spec (section 4.1): get_parent_chain walks
innermost-first from the parent of the entity up to the forest root. -/
def getParentChain (P : Nat → Option Nat) : Nat → Nat → List Nat
  | 0, _ => []
  | f + 1, e =>
    match P e with
    | none => []
    | some p => p :: getParentChain P f p

/-- The ancestor walk from an entity reaches a root (an entity with no
parent) within the given fuel. On states satisfying the forest invariant
of the spec this holds for fuel at least the depth of the entity. -/
def reachesRoot (P : Nat → Option Nat) : Nat → Nat → Bool
  | 0, e => (P e).isNone
  | f + 1, e =>
    match P e with
    | none => true
    | some p => reachesRoot P f p

/-- Depth of an entity: the length of its parent chain (spec glossary),
as computed by hit_test_point and hit_test_region in the source. -/
def entityDepth (ecs : LunaEcs) (e : Nat) : Nat :=
  (getParentChain ecs.parent ecs.fuel e).length

/-- A 2D affine map: linear part [[a, b], [c, d]] plus translation
(tx, ty). World transforms are values of this type. -/
structure Affine2 where
  a : ℚ
  b : ℚ
  c : ℚ
  d : ℚ
  tx : ℚ
  ty : ℚ
deriving DecidableEq, Repr

/-- The identity affine map. -/
def Affine2.idA : Affine2 := ⟨1, 0, 0, 1, 0, 0⟩

/-- Full affine composition: (composeAffine p q) v = p (q v). The linear
parts multiply and the translation of q is transformed by the linear
part of p — a parent rotation or scale acts on the child translation. -/
def composeAffine (p q : Affine2) : Affine2 :=
  ⟨p.a * q.a + p.b * q.c,
   p.a * q.b + p.b * q.d,
   p.c * q.a + p.d * q.c,
   p.c * q.b + p.d * q.d,
   p.a * q.tx + p.b * q.ty + p.tx,
   p.c * q.tx + p.d * q.ty + p.ty⟩

/-- The affine map of a local transform: translate after rotate after
scale (spec section 3: position, scale, rotation relative to parent). -/
def toAffine (l : LocalTransform) : Affine2 :=
  ⟨l.rotCos * l.scaleX, -l.rotSin * l.scaleY,
   l.rotSin * l.scaleX, l.rotCos * l.scaleY,
   l.posX, l.posY⟩

/-- The affine contribution of one ancestor on the chain: its local
transform if recorded, the identity otherwise. -/
def entryAffine (T : Nat → Option LocalTransform) (e : Nat) : Affine2 :=
  match T e with
  | some l => toAffine l
  | none => Affine2.idA

/-- Composite of the local transforms of a parent chain, applied
outermost (root, the last chain element) first. -/
def chainAffine (T : Nat → Option LocalTransform) (chain : List Nat) : Affine2 :=
  chain.reverse.foldl (fun acc e => composeAffine acc (entryAffine T e)) Affine2.idA

/-- Modelled from the spec (section 4.2, the TransformComponent sources
are not in the repository snapshot): compute_world_transform folds the
parent chain outermost-to-innermost, composing each ancestor local
transform, applies the entity local transform last, and returns none
when no local transform is recorded for the entity. -/
def compute_world_transform (T : Nat → Option LocalTransform) (e : Nat)
    (chain : List Nat) : Option Affine2 :=
  (T e).map (fun l => composeAffine (chainAffine T chain) (toAffine l))

/-- Modelled from the spec: the QuadTree of src/systems/hit_test.rs,
whose sources are not in the repository snapshot, reduced to its
observable state — the root region from QuadTree.new and the set of
stored (entity, bbox) entries. The quadrant subdivision of spec section
4.3 is a performance layout with the same observable query results
(section 4.3 specifies query_point / query_region extensionally). -/
structure QuadTree where
  x : ℚ
  y : ℚ
  w : ℚ
  h : ℚ
  entries : List (Nat × BoundingBox)
deriving DecidableEq, Repr

/-- QuadTree.new(x, y, width, height): an empty tree over the region. -/
def QuadTree.new (x y w h : ℚ) : QuadTree := ⟨x, y, w, h, []⟩

/-- Modelled from the spec: insert stores the entry for the entity,
overwriting any previous entry for the same entity (spec section 4.4
says inserts/overwrites; section 3 requires every indexed entity to be
stored exactly once, no duplication). -/
def QuadTree.insert (t : QuadTree) (e : Nat) (b : BoundingBox) : QuadTree :=
  { t with entries := t.entries.filter (fun p => p.1 != e) ++ [(e, b)] }

/-- Modelled from the spec (section 4.3): query_point returns every
entity whose bbox contains the point. -/
def QuadTree.query_point (t : QuadTree) (x y : ℚ) : List Nat :=
  (t.entries.filter (fun p => containsPoint p.2 x y)).map (fun p => p.1)

/-- Modelled from the spec (section 4.3): query_region returns every
entity whose bbox overlaps the query rectangle. -/
def QuadTree.query_region (t : QuadTree) (x y w h : ℚ) : List Nat :=
  (t.entries.filter (fun p => overlapsRegion p.2 x y w h)).map (fun p => p.1)

/-- HitTestSystem state: the spatial index (src/systems/hit_test.rs). -/
structure HitTestSystem where
  spatial_index : QuadTree
deriving DecidableEq, Repr

/-- HitTestSystem::new(width, height): a quadtree over (0, 0, w, h). -/
def HitTestSystem.new (w h : ℚ) : HitTestSystem :=
  ⟨QuadTree.new 0 0 w h⟩

/-- HitTestSystem::clear, exactly as the source writes it: the spatial
index is replaced by a fresh quadtree over the hardcoded region
(0, 0, 100, 100) — the configured dimensions are not stored. -/
def HitTestSystem.clear (_s : HitTestSystem) : HitTestSystem :=
  ⟨QuadTree.new 0 0 100 100⟩

/-- HitTestSystem::update_entity: if the entity has a local transform,
compute its world transform over its parent chain and insert a 1x1
bounding box anchored at the world position (the source hardcodes the
1x1 extent, with a TODO to use actual element dimensions). Otherwise do
nothing. -/
def update_entity (ecs : LunaEcs) (s : HitTestSystem) (e : Nat) : HitTestSystem :=
  match ecs.transforms e with
  | none => s
  | some _ =>
    match compute_world_transform ecs.transforms e
        (getParentChain ecs.parent ecs.fuel e) with
    | none => s
    | some wt =>
      ⟨s.spatial_index.insert e ⟨wt.tx, wt.ty, wt.tx + 1, wt.ty + 1⟩⟩

/-- Stable insertion step for sorting by descending depth: the new pair
goes after every already-placed pair of greater or equal depth,
modelling the stable sort_by of the source with comparator
b.1.cmp(&a.1). -/
def insDepthDesc (x : Nat × Nat) : List (Nat × Nat) → List (Nat × Nat)
  | [] => [x]
  | y :: ys => if x.2 ≤ y.2 then y :: insDepthDesc x ys else x :: y :: ys

/-- Stable sort by descending depth (second component), processing pairs
left to right. -/
def sortDepthDesc (l : List (Nat × Nat)) : List (Nat × Nat) :=
  l.foldl (fun acc x => insDepthDesc x acc) []

/-- HitTestSystem::hit_test_point: collect the point candidates from the
quadtree, pair each with its hierarchy depth, sort by descending depth,
and return the first entity (none when there is no candidate). -/
def hit_test_point (ecs : LunaEcs) (s : HitTestSystem) (x y : ℚ) : Option Nat :=
  let depthMap := (s.spatial_index.query_point x y).map (fun e => (e, entityDepth ecs e))
  (sortDepthDesc depthMap).head?.map (fun p => p.1)

/-- HitTestSystem::hit_test_region: collect the region candidates from
the quadtree, pair each with its hierarchy depth, sort by descending
depth, and return the entities in that order. -/
def hit_test_region (ecs : LunaEcs) (s : HitTestSystem) (x y w h : ℚ) : List Nat :=
  let depthMap := (s.spatial_index.query_region x y w h).map (fun e => (e, entityDepth ecs e))
  (sortDepthDesc depthMap).map (fun p => p.1)

/-!
The Canvas object model of crates/luna/src/luna.rs, and the AABB test
and id generator of src/canvas.rs. HashMap state is modelled as an
association list with overwriting insert; the visual style fields that
no claim depends on (colors) are omitted.
-/

/-- ElementStyle of crates/luna/src/luna.rs: size, border width, and an
optional position (set when the element is added to the canvas). -/
structure ElementStyle where
  sizeW : ℚ
  sizeH : ℚ
  borderWidth : ℚ
  position : Option (ℚ × ℚ)
deriving DecidableEq, Repr

/-- Overwriting insert into an association list keyed by Nat, modelling
HashMap::insert: any previous binding of the key is dropped and the new
binding recorded. -/
def ainsert {α : Type} (l : List (Nat × α)) (k : Nat) (v : α) : List (Nat × α) :=
  l.filter (fun p => p.1 != k) ++ [(k, v)]

/-- Canvas state of crates/luna/src/luna.rs: the element map, the
element position map, and the monotone id counter next_id. -/
structure Canvas where
  elements : List (Nat × ElementStyle)
  element_positions : List (Nat × (ℚ × ℚ))
  next_id : Nat
deriving DecidableEq, Repr

/-- Canvas::add_element: takes the current next_id as the new element
id, increments the counter, stores the style (with its position set) in
elements and the position in element_positions, and returns the id. -/
def add_element (style : ElementStyle) (pos : ℚ × ℚ) (c : Canvas) : Canvas × Nat :=
  let id := c.next_id
  ({ elements := ainsert c.elements id { style with position := some pos },
     element_positions := ainsert c.element_positions id pos,
     next_id := id + 1 }, id)

/-- Canvas::move_element: when the id is present in elements, update the
element position in its style, record the new position in
element_positions, and return true; otherwise return false and leave the
canvas untouched. -/
def move_element (id : Nat) (newPos : ℚ × ℚ) (c : Canvas) : Canvas × Bool :=
  match List.lookup id c.elements with
  | some st =>
    ({ c with
       elements := ainsert c.elements id { st with position := some newPos },
       element_positions := ainsert c.element_positions id newPos }, true)
  | none => (c, false)

/-- The Canvas mutations that are modelled: adding an element and moving
an element. No Canvas operation ever decreases next_id. -/
inductive CanvasOp where
  | add (style : ElementStyle) (pos : ℚ × ℚ)
  | move (id : Nat) (pos : ℚ × ℚ)

/-- Apply one Canvas operation to the state. -/
def applyCanvasOp (c : Canvas) : CanvasOp → Canvas
  | CanvasOp.add style pos => (add_element style pos c).1
  | CanvasOp.move id pos => (move_element id pos c).1

/-- The ids returned by the add_element calls of an operation sequence,
in order. -/
def emittedIds (c : Canvas) : List CanvasOp → List Nat
  | [] => []
  | CanvasOp.add style pos :: ops =>
    (add_element style pos c).2 :: emittedIds (applyCanvasOp c (CanvasOp.add style pos)) ops
  | CanvasOp.move id pos :: ops => emittedIds (applyCanvasOp c (CanvasOp.move id pos)) ops

/-- The operations of src/canvas.rs that touch the LunaCanvas next_id
counter: generate_id (returns the counter and increments it) and the
bump in LunaCanvas::new that raises next_id to at least one past a
loaded node id (next_id = next_id.max(loaded + 1)). -/
inductive GenOp where
  | gen
  | bumpMax (k : Nat)

/-- Effect of one counter operation on the LunaCanvas next_id. -/
def applyGenOp (n : Nat) : GenOp → Nat
  | GenOp.gen => n + 1
  | GenOp.bumpMax k => Nat.max n k

/-- The ids returned by the generate_id calls of a counter-operation
sequence, starting from counter value n. -/
def genEmittedIds (n : Nat) : List GenOp → List Nat
  | [] => []
  | GenOp.gen :: ops => n :: genEmittedIds (n + 1) ops
  | GenOp.bumpMax k :: ops => genEmittedIds (Nat.max n k) ops

/-- gpui Bounds with f32 coordinates, as used by bounds_intersect in
src/canvas.rs: an origin and a size. -/
structure CBounds where
  ox : ℚ
  oy : ℚ
  w : ℚ
  h : ℚ
deriving DecidableEq, Repr

/-- bounds_intersect of src/canvas.rs: false when one rectangle is
strictly to the left of the other or strictly above the other, true
otherwise. -/
def bounds_intersect (a b : CBounds) : Bool :=
  if a.ox + a.w < b.ox ∨ b.ox + b.w < a.ox then false
  else if a.oy + a.h < b.oy ∨ b.oy + b.h < a.oy then false
  else true

/-! Helper lemmas about the depth sort. -/

/-- The comparator of the depth sort, as a relation: the left pair has
at least the depth of the right pair. -/
def DepthGE (a b : Nat × Nat) : Prop := b.2 ≤ a.2

lemma insDepthDesc_perm (x : Nat × Nat) (l : List (Nat × Nat)) :
    List.Perm (insDepthDesc x l) (x :: l) := by
  induction l with
  | nil => simp [insDepthDesc]
  | cons y ys ih =>
    by_cases h : x.2 ≤ y.2
    · simp only [insDepthDesc, if_pos h]
      exact (List.Perm.cons y ih).trans (List.Perm.swap x y ys)
    · simp [insDepthDesc, if_neg h]

lemma foldl_insDepthDesc_perm (l acc : List (Nat × Nat)) :
    List.Perm (l.foldl (fun acc x => insDepthDesc x acc) acc) (l ++ acc) := by
  induction l generalizing acc with
  | nil => simp
  | cons x xs ih =>
    simp only [List.foldl_cons, List.cons_append]
    exact (ih (insDepthDesc x acc)).trans
      ((List.Perm.append_left xs (insDepthDesc_perm x acc)).trans
        List.perm_middle)

lemma sortDepthDesc_perm (l : List (Nat × Nat)) :
    List.Perm (sortDepthDesc l) l := by
  simpa [sortDepthDesc] using foldl_insDepthDesc_perm l []

lemma mem_sortDepthDesc {z : Nat × Nat} {l : List (Nat × Nat)} :
    z ∈ sortDepthDesc l ↔ z ∈ l :=
  (sortDepthDesc_perm l).mem_iff

lemma mem_insDepthDesc {z x : Nat × Nat} {l : List (Nat × Nat)} :
    z ∈ insDepthDesc x l ↔ z = x ∨ z ∈ l := by
  constructor
  · intro h
    have := (insDepthDesc_perm x l).mem_iff.mp h
    simpa using this
  · intro h
    apply (insDepthDesc_perm x l).mem_iff.mpr
    simpa using h

lemma pairwise_insDepthDesc {x : Nat × Nat} {l : List (Nat × Nat)}
    (hl : List.Pairwise DepthGE l) :
    List.Pairwise DepthGE (insDepthDesc x l) := by
  induction l with
  | nil => simp [insDepthDesc, DepthGE]
  | cons y ys ih =>
    rcases List.pairwise_cons.mp hl with ⟨hy, hys⟩
    by_cases h : x.2 ≤ y.2
    · simp only [insDepthDesc, if_pos h]
      refine List.pairwise_cons.mpr ⟨?_, ih hys⟩
      intro z hz
      rcases mem_insDepthDesc.mp hz with rfl | hz
      · exact h
      · exact hy z hz
    · simp only [insDepthDesc, if_neg h]
      refine List.pairwise_cons.mpr ⟨?_, hl⟩
      intro z hz
      rcases List.mem_cons.mp hz with rfl | hz
      · exact le_of_lt (Nat.lt_of_not_le h)
      · exact Nat.le_trans (hy z hz) (le_of_lt (Nat.lt_of_not_le h))

lemma pairwise_foldl_insDepthDesc (l acc : List (Nat × Nat))
    (hacc : List.Pairwise DepthGE acc) :
    List.Pairwise DepthGE (l.foldl (fun acc x => insDepthDesc x acc) acc) := by
  induction l generalizing acc with
  | nil => simpa
  | cons x xs ih => exact ih _ (pairwise_insDepthDesc hacc)

lemma pairwise_sortDepthDesc (l : List (Nat × Nat)) :
    List.Pairwise DepthGE (sortDepthDesc l) :=
  pairwise_foldl_insDepthDesc l [] (by simp)

lemma head_depth_max {h : Nat × Nat} {t l : List (Nat × Nat)}
    (hsort : sortDepthDesc l = h :: t) {z : Nat × Nat} (hz : z ∈ l) :
    z.2 ≤ h.2 := by
  have hmem : z ∈ sortDepthDesc l := mem_sortDepthDesc.mpr hz
  rw [hsort] at hmem
  rcases List.mem_cons.mp hmem with rfl | hmem
  · exact Nat.le_refl _
  · have hp := pairwise_sortDepthDesc l
    rw [hsort] at hp
    exact (List.pairwise_cons.mp hp).1 z hmem

lemma sortDepthDesc_eq_nil_iff {l : List (Nat × Nat)} :
    sortDepthDesc l = [] ↔ l = [] := by
  constructor
  · intro h
    have hlen := (sortDepthDesc_perm l).symm.length_eq
    rw [h] at hlen
    exact List.length_eq_zero.mp (by simpa using hlen)
  · intro h
    subst h
    rfl

/-! Helper lemmas about parent chains and fuel. -/

lemma reachesRoot_mono {P : Nat → Option Nat} {f f' : Nat} {e : Nat}
    (h : reachesRoot P f e = true) (hle : f ≤ f') :
    reachesRoot P f' e = true := by
  induction f generalizing e f' with
  | zero =>
    simp only [reachesRoot, Option.isNone_iff_eq_none] at h
    cases f' with
    | zero => simpa [reachesRoot, Option.isNone_iff_eq_none]
    | succ g => simp [reachesRoot, h]
  | succ f ih =>
    cases f' with
    | zero => exact absurd hle (by omega)
    | succ g =>
      simp only [reachesRoot] at h ⊢
      cases hPe : P e with
      | none => rfl
      | some p =>
        rw [hPe] at h
        exact ih h (by omega)

lemma getParentChain_stable {P : Nat → Option Nat} {f f' : Nat} {e : Nat}
    (h : reachesRoot P f e = true) (hle : f ≤ f') :
    getParentChain P f' e = getParentChain P f e := by
  induction f generalizing e f' with
  | zero =>
    simp only [reachesRoot, Option.isNone_iff_eq_none] at h
    cases f' with
    | zero => rfl
    | succ g => simp [getParentChain, h]
  | succ f ih =>
    cases f' with
    | zero => exact absurd hle (by omega)
    | succ g =>
      simp only [reachesRoot] at h
      cases hPe : P e with
      | none => simp [getParentChain, hPe]
      | some p =>
        rw [hPe] at h
        have hp : reachesRoot P f p = true := h
        have h1 : getParentChain P (g + 1) e = p :: getParentChain P g p := by
          simp [getParentChain, hPe]
        have h2 : getParentChain P (f + 1) e = p :: getParentChain P f p := by
          simp [getParentChain, hPe]
        rw [h1, h2, ih hp (by omega)]

lemma reachesRoot_of_mem_chain {P : Nat → Option Nat} {f : Nat} {e p : Nat}
    (h : reachesRoot P f e = true) (hmem : p ∈ getParentChain P f e) :
    reachesRoot P f p = true := by
  induction f generalizing e with
  | zero => simp [getParentChain] at hmem
  | succ f ih =>
    simp only [reachesRoot] at h
    simp only [getParentChain] at hmem
    cases hPe : P e with
    | none => rw [hPe] at hmem; simp at hmem
    | some q =>
      rw [hPe] at hmem h
      rcases List.mem_cons.mp hmem with rfl | hmem
      · exact reachesRoot_mono h (by omega)
      · exact reachesRoot_mono (ih h hmem) (by omega)

lemma chain_length_lt_of_mem {P : Nat → Option Nat} {f : Nat} {e p : Nat}
    (h : reachesRoot P f e = true) (hmem : p ∈ getParentChain P f e) :
    (getParentChain P f p).length < (getParentChain P f e).length := by
  induction f generalizing e with
  | zero => simp [getParentChain] at hmem
  | succ f ih =>
    simp only [reachesRoot] at h
    simp only [getParentChain] at hmem
    cases hPe : P e with
    | none => rw [hPe] at hmem; simp at hmem
    | some q =>
      rw [hPe] at hmem h
      have hq : reachesRoot P f q = true := h
      have hmem2 : p ∈ q :: getParentChain P f q := hmem
      have hchain : getParentChain P (f + 1) e = q :: getParentChain P f q := by
        simp [getParentChain, hPe]
      rcases List.mem_cons.mp hmem2 with rfl | hmem3
      · rw [hchain, getParentChain_stable hq (Nat.le_succ f)]
        simp
      · have hlt := ih hq hmem3
        have hp : reachesRoot P f p = true := reachesRoot_of_mem_chain hq hmem3
        rw [hchain, getParentChain_stable hp (Nat.le_succ f)]
        simp only [List.length_cons]
        omega

/-! Helper lemmas about association lists and the id counter. -/

lemma lookup_ainsert {α : Type} (l : List (Nat × α)) (k : Nat) (v : α) :
    List.lookup k (ainsert l k v) = some v := by
  induction l with
  | nil => simp [ainsert]
  | cons p l ih =>
    obtain ⟨a, b⟩ := p
    simp only [ainsert, List.filter_cons] at ih ⊢
    by_cases h : a = k
    · simp [h]
      simpa [ainsert] using ih
    · have hb : ((a, b).1 != k) = true := by simp [h]
      rw [if_pos hb]
      have hk : (k == a) = false := by simp [Ne.symm h]
      simp [List.lookup, hk]
      simpa [ainsert] using ih

lemma applyCanvasOp_next_id_mono (c : Canvas) (op : CanvasOp) :
    c.next_id ≤ (applyCanvasOp c op).next_id := by
  cases op with
  | add style pos => simp [applyCanvasOp, add_element]
  | move id pos =>
    simp only [applyCanvasOp, move_element]
    cases List.lookup id c.elements <;> simp

lemma emittedIds_lower_bound (ops : List CanvasOp) (c : Canvas) :
    ∀ i ∈ emittedIds c ops, c.next_id ≤ i := by
  induction ops generalizing c with
  | nil => intro i hi; simp [emittedIds] at hi
  | cons op ops ih =>
    intro i hi
    cases op with
    | add style pos =>
      simp only [emittedIds, add_element, List.mem_cons] at hi
      rcases hi with rfl | hi
      · exact Nat.le_refl _
      · have := ih _ i hi
        have hmono := applyCanvasOp_next_id_mono c (CanvasOp.add style pos)
        exact Nat.le_trans hmono this
    | move id pos =>
      simp only [emittedIds] at hi
      have := ih _ i hi
      have hmono := applyCanvasOp_next_id_mono c (CanvasOp.move id pos)
      exact Nat.le_trans hmono this

lemma emittedIds_nodup (ops : List CanvasOp) (c : Canvas) :
    (emittedIds c ops).Nodup := by
  induction ops generalizing c with
  | nil => simp [emittedIds]
  | cons op ops ih =>
    cases op with
    | add style pos =>
      simp only [emittedIds, add_element, List.nodup_cons]
      refine ⟨fun hmem => ?_, ih _⟩
      have hlb := emittedIds_lower_bound ops _ c.next_id hmem
      simp [applyCanvasOp, add_element] at hlb
    | move id pos =>
      simp only [emittedIds]
      exact ih _

lemma genEmittedIds_lower_bound (ops : List GenOp) (n : Nat) :
    ∀ i ∈ genEmittedIds n ops, n ≤ i := by
  induction ops generalizing n with
  | nil => intro i hi; simp [genEmittedIds] at hi
  | cons op ops ih =>
    intro i hi
    cases op with
    | gen =>
      simp only [genEmittedIds, List.mem_cons] at hi
      rcases hi with rfl | hi
      · exact Nat.le_refl _
      · exact Nat.le_trans (Nat.le_succ n) (ih _ i hi)
    | bumpMax k =>
      simp only [genEmittedIds] at hi
      exact Nat.le_trans (Nat.le_max_left n k) (ih _ i hi)

lemma genEmittedIds_nodup (ops : List GenOp) (n : Nat) :
    (genEmittedIds n ops).Nodup := by
  induction ops generalizing n with
  | nil => simp [genEmittedIds]
  | cons op ops ih =>
    cases op with
    | gen =>
      simp only [genEmittedIds, List.nodup_cons]
      refine ⟨fun hmem => ?_, ih _⟩
      have := genEmittedIds_lower_bound ops (n + 1) n hmem
      omega
    | bumpMax k =>
      simp only [genEmittedIds]
      exact ih _

/-! Helper lemmas about the hit-test queries. -/

lemma mem_query_point {t : QuadTree} {e : Nat} {x y : ℚ} :
    e ∈ t.query_point x y ↔ ∃ b, (e, b) ∈ t.entries ∧ containsPoint b x y = true := by
  simp only [QuadTree.query_point, List.mem_map, List.mem_filter]
  constructor
  · rintro ⟨⟨e', b⟩, ⟨hmem, hc⟩, rfl⟩
    exact ⟨b, hmem, hc⟩
  · rintro ⟨b, hmem, hc⟩
    exact ⟨(e, b), ⟨hmem, hc⟩, rfl⟩

lemma mem_query_region {t : QuadTree} {e : Nat} {x y w h : ℚ} :
    e ∈ t.query_region x y w h ↔
      ∃ b, (e, b) ∈ t.entries ∧ overlapsRegion b x y w h = true := by
  simp only [QuadTree.query_region, List.mem_map, List.mem_filter]
  constructor
  · rintro ⟨⟨e', b⟩, ⟨hmem, hc⟩, rfl⟩
    exact ⟨b, hmem, hc⟩
  · rintro ⟨b, hmem, hc⟩
    exact ⟨(e, b), ⟨hmem, hc⟩, rfl⟩

lemma hit_test_point_eq_none {ecs : LunaEcs} {s : HitTestSystem} {x y : ℚ}
    (h : s.spatial_index.query_point x y = []) :
    hit_test_point ecs s x y = none := by
  simp [hit_test_point, h, sortDepthDesc]

lemma hit_test_point_spec_core (ecs : LunaEcs) (s : HitTestSystem) (x y : ℚ)
    (hne : s.spatial_index.query_point x y ≠ []) :
    ∃ e, hit_test_point ecs s x y = some e ∧
      e ∈ s.spatial_index.query_point x y ∧
      ∀ e' ∈ s.spatial_index.query_point x y, entityDepth ecs e' ≤ entityDepth ecs e := by
  set q := s.spatial_index.query_point x y with hq
  set dm := q.map (fun e => (e, entityDepth ecs e)) with hdm
  have hdmne : dm ≠ [] := by
    intro hnil
    exact hne (List.map_eq_nil_iff.mp hnil)
  cases hs : sortDepthDesc dm with
  | nil => exact absurd (sortDepthDesc_eq_nil_iff.mp hs) hdmne
  | cons hd tl =>
    refine ⟨hd.1, ?_, ?_, ?_⟩
    · simp [hit_test_point, ← hdm, hs]
    · have : hd ∈ sortDepthDesc dm := by rw [hs]; exact List.mem_cons_self hd tl
      have hmem : hd ∈ dm := mem_sortDepthDesc.mp this
      rcases List.mem_map.mp hmem with ⟨e, he, heq⟩
      have : hd.1 = e := by rw [← heq]
      rw [this]
      exact he
    · intro e' he'
      have hmem : (e', entityDepth ecs e') ∈ dm := List.mem_map_of_mem _ he'
      have hle := head_depth_max hs hmem
      have : hd ∈ sortDepthDesc dm := by rw [hs]; exact List.mem_cons_self hd tl
      have hmemhd : hd ∈ dm := mem_sortDepthDesc.mp this
      rcases List.mem_map.mp hmemhd with ⟨e, he, heq⟩
      have h1 : hd.1 = e := by rw [← heq]
      have h2 : hd.2 = entityDepth ecs e := by rw [← heq]
      rw [h1]
      calc entityDepth ecs e' = (e', entityDepth ecs e').2 := rfl
        _ ≤ hd.2 := hle
        _ = entityDepth ecs e := h2

lemma hit_test_region_mem {ecs : LunaEcs} {s : HitTestSystem} {x y w h : ℚ} {e : Nat} :
    e ∈ hit_test_region ecs s x y w h ↔ e ∈ s.spatial_index.query_region x y w h := by
  simp only [hit_test_region, List.mem_map]
  constructor
  · rintro ⟨p, hp, rfl⟩
    have hdm := mem_sortDepthDesc.mp hp
    rcases List.mem_map.mp hdm with ⟨e', he', heq⟩
    have : p.1 = e' := by rw [← heq]
    rw [this]
    exact he'
  · intro he
    refine ⟨(e, entityDepth ecs e), ?_, rfl⟩
    exact mem_sortDepthDesc.mpr (List.mem_map_of_mem _ he)

lemma hit_test_region_pairwise (ecs : LunaEcs) (s : HitTestSystem) (x y w h : ℚ) :
    List.Pairwise (fun a b => entityDepth ecs b ≤ entityDepth ecs a)
      (hit_test_region ecs s x y w h) := by
  simp only [hit_test_region]
  rw [List.pairwise_map]
  have hsorted := pairwise_sortDepthDesc
    ((s.spatial_index.query_region x y w h).map (fun e => (e, entityDepth ecs e)))
  refine hsorted.imp_of_mem ?_
  intro a b ha hb hab
  have hadm := mem_sortDepthDesc.mp ha
  have hbdm := mem_sortDepthDesc.mp hb
  rcases List.mem_map.mp hadm with ⟨ea, _, heqa⟩
  rcases List.mem_map.mp hbdm with ⟨eb, _, heqb⟩
  have ha1 : a.2 = entityDepth ecs a.1 := by rw [← heqa]
  have hb1 : b.2 = entityDepth ecs b.1 := by rw [← heqb]
  have : b.2 ≤ a.2 := hab
  rw [ha1, hb1] at this
  exact this

lemma filter_keys_nodup {β : Type} {l : List (Nat × β)} (p : Nat × β → Bool)
    (h : (l.map Prod.fst).Nodup) : ((l.filter p).map Prod.fst).Nodup := by
  have hs : (l.filter p).Sublist l := List.filter_sublist l
  exact (hs.map Prod.fst).nodup h

lemma insert_keys_nodup (t : QuadTree) (e : Nat) (b : BoundingBox)
    (h : (t.entries.map Prod.fst).Nodup) :
    (((t.insert e b).entries).map Prod.fst).Nodup := by
  simp only [QuadTree.insert, List.map_append]
  rw [List.nodup_append]
  refine ⟨filter_keys_nodup _ h, by simp, ?_⟩
  intro a ha
  simp only [List.mem_map] at ha
  rcases ha with ⟨q, hq, rfl⟩
  have := (List.mem_filter.mp hq).2
  simp only [List.map_cons, List.map_nil, List.mem_singleton]
  intro heq
  rw [heq] at this
  simp at this

lemma query_point_nodup (t : QuadTree) (x y : ℚ)
    (h : (t.entries.map Prod.fst).Nodup) : (t.query_point x y).Nodup :=
  filter_keys_nodup _ h

lemma query_region_nodup (t : QuadTree) (x y w h : ℚ)
    (hn : (t.entries.map Prod.fst).Nodup) : (t.query_region x y w h).Nodup :=
  filter_keys_nodup _ hn

lemma insert_insert_eq (t : QuadTree) (e : Nat) (b : BoundingBox) :
    (t.insert e b).insert e b = t.insert e b := by
  simp only [QuadTree.insert, List.filter_append, List.filter_filter]
  simp

/-! Helper lemmas about affine composition. -/

lemma composeAffine_idA_left (q : Affine2) : composeAffine Affine2.idA q = q := by
  cases q
  simp [composeAffine, Affine2.idA]

lemma chainAffine_nil (T : Nat → Option LocalTransform) : chainAffine T [] = Affine2.idA := rfl

lemma chainAffine_cons (T : Nat → Option LocalTransform) (p : Nat) (c : List Nat) :
    chainAffine T (p :: c) = composeAffine (chainAffine T c) (entryAffine T p) := by
  simp [chainAffine, List.foldl_append]

/-- Characterization of the AABB test as a proposition. -/
lemma bounds_intersect_iff (a b : CBounds) :
    bounds_intersect a b = true ↔
      ¬(a.ox + a.w < b.ox) ∧ ¬(b.ox + b.w < a.ox) ∧
      ¬(a.oy + a.h < b.oy) ∧ ¬(b.oy + b.h < a.oy) := by
  simp only [bounds_intersect]
  split_ifs with h1 h2
  · simp only [Bool.false_eq_true, false_iff]
    tauto
  · simp only [Bool.false_eq_true, false_iff]
    tauto
  · push_neg at h1 h2
    simp only [true_iff]
    constructor
    · intro h; exact absurd h (not_lt.mpr h1.1)
    constructor
    · intro h; exact absurd h (not_lt.mpr h1.2)
    constructor
    · intro h; exact absurd h (not_lt.mpr h2.1)
    · intro h; exact absurd h (not_lt.mpr h2.2)

/-!
Claim theorems.
-/

/-- C1: after HitTestSystem.clear, every point query returns none and
every region query returns the empty sequence — but the configured
region is NOT preserved: the source replaces the index by a quadtree
over the hardcoded default region (0, 0, 100, 100) (with a TODO noting
the dimensions are not stored), so a system built as
HitTestSystem.new 200 300 comes back with width 100 instead of 200. -/
theorem clear_empties_index_but_resets_region_to_default :
    (∀ (s : HitTestSystem) (ecs : LunaEcs) (x y : ℚ),
        hit_test_point ecs (HitTestSystem.clear s) x y = none)
    ∧ (∀ (s : HitTestSystem) (ecs : LunaEcs) (x y w h : ℚ),
        hit_test_region ecs (HitTestSystem.clear s) x y w h = [])
    ∧ (HitTestSystem.clear (HitTestSystem.new 200 300)).spatial_index.w = 100
    ∧ (HitTestSystem.new 200 300).spatial_index.w = 200
    ∧ (100 : ℚ) ≠ 200 :=
  ⟨fun _ _ _ _ => rfl, fun _ _ _ _ _ _ => rfl, rfl, rfl, by decide⟩

/-- C4: update_entity on an entity with no recorded local transform is a
no-op: the system state is returned unchanged, and on a fresh system a
subsequent point query at any location (in particular at the presumed
location of the entity) returns none. -/
theorem update_entity_noop_without_transform :
    ∀ (ecs : LunaEcs) (s : HitTestSystem) (e : Nat),
      ecs.transforms e = none →
      update_entity ecs s e = s
      ∧ ∀ (w h x y : ℚ),
          hit_test_point ecs (update_entity ecs (HitTestSystem.new w h) e) x y = none := by
  intro ecs s e h
  constructor
  · simp [update_entity, h]
  · intro w hh x y
    have h1 : update_entity ecs (HitTestSystem.new w hh) e = HitTestSystem.new w hh := by
      simp [update_entity, h]
    rw [h1]
    rfl

/-- Witness for C4: a concrete ECS with no transform recorded for entity
3 leaves a fresh 50 by 60 system untouched and a point query at (7, 8)
finds nothing. -/
theorem update_entity_noop_without_transform_witness :
    (⟨fun _ => none, fun _ => none, 0⟩ : LunaEcs).transforms 3 = none
    ∧ update_entity ⟨fun _ => none, fun _ => none, 0⟩ (HitTestSystem.new 50 60) 3 =
        HitTestSystem.new 50 60
    ∧ hit_test_point ⟨fun _ => none, fun _ => none, 0⟩
        (update_entity ⟨fun _ => none, fun _ => none, 0⟩ (HitTestSystem.new 50 60) 3) 7 8 = none :=
  ⟨rfl,
   (update_entity_noop_without_transform ⟨fun _ => none, fun _ => none, 0⟩
     (HitTestSystem.new 50 60) 3 rfl).1,
   (update_entity_noop_without_transform ⟨fun _ => none, fun _ => none, 0⟩
     (HitTestSystem.new 50 60) 3 rfl).2 50 60 7 8⟩

/-- C5: the code bug behind the claim — update_entity always inserts the
hardcoded 1x1 bounding box anchored at the world position; no externally
supplied visual extent is involved (the extent is not even an input of
the function). In general the inserted box is exactly the unit box at
the world translation, and concretely an entity at world position (3, 4)
is indexed with the box (3, 4)-(4, 5) whatever its visual extent. -/
theorem update_entity_inserts_fixed_unit_bbox :
    (∀ (ecs : LunaEcs) (s : HitTestSystem) (e : Nat),
        update_entity ecs s e = s ∨
        ∃ wt : Affine2,
          compute_world_transform ecs.transforms e
            (getParentChain ecs.parent ecs.fuel e) = some wt ∧
          update_entity ecs s e =
            ⟨s.spatial_index.insert e ⟨wt.tx, wt.ty, wt.tx + 1, wt.ty + 1⟩⟩)
    ∧ (update_entity
        ⟨fun _ => none, fun n => if n = 0 then some ⟨3, 4, 1, 1, 1, 0⟩ else none, 1⟩
        (HitTestSystem.new 100 100) 0).spatial_index.entries
        = [(0, ⟨3, 4, 4, 5⟩)] := by
  constructor
  · intro ecs s e
    cases h : ecs.transforms e with
    | none => exact Or.inl (by simp [update_entity, h])
    | some l =>
      refine Or.inr ⟨composeAffine (chainAffine ecs.transforms
        (getParentChain ecs.parent ecs.fuel e)) (toAffine l), ?_, ?_⟩
      · simp [compute_world_transform, h]
      · simp [update_entity, h, compute_world_transform]
  · simp only [update_entity, compute_world_transform, getParentChain, chainAffine,
      HitTestSystem.new, QuadTree.new, QuadTree.insert]
    norm_num [composeAffine, toAffine, Affine2.idA, entryAffine]

/-- C7: inserting the same (entity, bbox) pair twice yields the same
point and region query results as inserting it once, and when the index
stores each entity at most once, no query reports an entity more than
once. -/
theorem quadtree_insert_idempotent :
    ∀ (t : QuadTree) (e : Nat) (b : BoundingBox) (x y w h : ℚ),
      ((t.insert e b).insert e b).query_point x y = (t.insert e b).query_point x y
      ∧ ((t.insert e b).insert e b).query_region x y w h = (t.insert e b).query_region x y w h
      ∧ ((t.entries.map Prod.fst).Nodup →
          ((t.insert e b).query_point x y).Nodup
          ∧ ((t.insert e b).query_region x y w h).Nodup) := by
  intro t e b x y w h
  refine ⟨by rw [insert_insert_eq], by rw [insert_insert_eq], fun hn => ?_⟩
  exact ⟨query_point_nodup _ _ _ (insert_keys_nodup t e b hn),
    query_region_nodup _ _ _ _ _ (insert_keys_nodup t e b hn)⟩

/-- Witness for C7: on a concrete one-entry index, a double insert of
entity 2 gives the same query results as a single insert, and both
queries are duplicate-free. -/
theorem quadtree_insert_idempotent_witness :
    ((((QuadTree.mk 0 0 10 10 [(1, ⟨0, 0, 2, 2⟩)]).insert 2 ⟨0, 0, 3, 3⟩).insert 2
        ⟨0, 0, 3, 3⟩).query_point 1 1
      = ((QuadTree.mk 0 0 10 10 [(1, ⟨0, 0, 2, 2⟩)]).insert 2 ⟨0, 0, 3, 3⟩).query_point 1 1)
    ∧ ((((QuadTree.mk 0 0 10 10 [(1, ⟨0, 0, 2, 2⟩)]).insert 2 ⟨0, 0, 3, 3⟩).insert 2
        ⟨0, 0, 3, 3⟩).query_region 0 0 5 5
      = ((QuadTree.mk 0 0 10 10 [(1, ⟨0, 0, 2, 2⟩)]).insert 2 ⟨0, 0, 3, 3⟩).query_region 0 0 5 5)
    ∧ (((QuadTree.mk 0 0 10 10 [(1, ⟨0, 0, 2, 2⟩)]).insert 2 ⟨0, 0, 3, 3⟩).query_point 1 1).Nodup
    ∧ (((QuadTree.mk 0 0 10 10 [(1, ⟨0, 0, 2, 2⟩)]).insert 2
        ⟨0, 0, 3, 3⟩).query_region 0 0 5 5).Nodup :=
  ⟨(quadtree_insert_idempotent (QuadTree.mk 0 0 10 10 [(1, ⟨0, 0, 2, 2⟩)]) 2 ⟨0, 0, 3, 3⟩
      1 1 0 0).1,
   (quadtree_insert_idempotent (QuadTree.mk 0 0 10 10 [(1, ⟨0, 0, 2, 2⟩)]) 2 ⟨0, 0, 3, 3⟩
      0 0 5 5).2.1,
   ((quadtree_insert_idempotent (QuadTree.mk 0 0 10 10 [(1, ⟨0, 0, 2, 2⟩)]) 2 ⟨0, 0, 3, 3⟩
      1 1 5 5).2.2 (by decide)).1,
   ((quadtree_insert_idempotent (QuadTree.mk 0 0 10 10 [(1, ⟨0, 0, 2, 2⟩)]) 2 ⟨0, 0, 3, 3⟩
      0 0 5 5).2.2 (by decide)).2⟩

/-- C9: the AABB intersection test is commutative, and two rectangles
with nonnegative extents that merely touch along an edge — shared x seam
with overlapping y ranges, or the analogous y case — are reported as
intersecting. -/
theorem bounds_intersect_comm_and_edge_touch :
    ∀ a b : CBounds,
      bounds_intersect a b = bounds_intersect b a
      ∧ (0 ≤ a.w → 0 ≤ b.w → a.ox + a.w = b.ox →
          b.oy ≤ a.oy + a.h → a.oy ≤ b.oy + b.h → bounds_intersect a b = true)
      ∧ (0 ≤ a.h → 0 ≤ b.h → a.oy + a.h = b.oy →
          b.ox ≤ a.ox + a.w → a.ox ≤ b.ox + b.w → bounds_intersect a b = true) := by
  intro a b
  refine ⟨?_, ?_, ?_⟩
  · cases hab : bounds_intersect a b <;> cases hba : bounds_intersect b a <;> try rfl
    · exfalso
      rcases (bounds_intersect_iff b a).mp hba with ⟨h1, h2, h3, h4⟩
      have : bounds_intersect a b = true := (bounds_intersect_iff a b).mpr ⟨h2, h1, h4, h3⟩
      rw [hab] at this
      exact Bool.false_ne_true this
    · exfalso
      rcases (bounds_intersect_iff a b).mp hab with ⟨h1, h2, h3, h4⟩
      have : bounds_intersect b a = true := (bounds_intersect_iff b a).mpr ⟨h2, h1, h4, h3⟩
      rw [hba] at this
      exact Bool.false_ne_true this
  · intro hw1 hw2 hx hy1 hy2
    refine (bounds_intersect_iff a b).mpr ⟨?_, ?_, ?_, ?_⟩ <;> push_neg <;> linarith
  · intro hh1 hh2 hy hx1 hx2
    refine (bounds_intersect_iff a b).mpr ⟨?_, ?_, ?_, ?_⟩ <;> push_neg <;> linarith

/-- Witness for C9: the unit squares at (0, 0) and (1, 0) touch along
the seam x = 1 and the test reports them as intersecting (and agrees
with its flipped application). -/
theorem bounds_intersect_comm_and_edge_touch_witness :
    bounds_intersect ⟨0, 0, 1, 1⟩ ⟨1, 0, 1, 1⟩ = bounds_intersect ⟨1, 0, 1, 1⟩ ⟨0, 0, 1, 1⟩
    ∧ bounds_intersect ⟨0, 0, 1, 1⟩ ⟨1, 0, 1, 1⟩ = true :=
  ⟨(bounds_intersect_comm_and_edge_touch ⟨0, 0, 1, 1⟩ ⟨1, 0, 1, 1⟩).1,
   (bounds_intersect_comm_and_edge_touch ⟨0, 0, 1, 1⟩ ⟨1, 0, 1, 1⟩).2.1
     (by simp) (by simp) (by simp) (by simp) (by simp)⟩

/-- C10: move_element returns false and leaves the canvas state
unchanged when the id is absent from elements, and returns true and
records the new position in element_positions when the id is present. -/
theorem move_element_absent_present :
    ∀ (c : Canvas) (id : Nat) (pos : ℚ × ℚ),
      (List.lookup id c.elements = none → move_element id pos c = (c, false))
      ∧ (∀ st, List.lookup id c.elements = some st →
          (move_element id pos c).2 = true
          ∧ List.lookup id (move_element id pos c).1.element_positions = some pos) := by
  intro c id pos
  constructor
  · intro h
    simp [move_element, h]
  · intro st h
    constructor
    · simp [move_element, h]
    · simp only [move_element, h]
      exact lookup_ainsert _ _ _

/-- Witness for C10: on a concrete canvas holding only element 5, moving
the absent id 9 fails and changes nothing, while moving the present id 5
succeeds and records the new position. -/
theorem move_element_absent_present_witness :
    (move_element 9 (2, 2) ⟨[(5, ⟨10, 10, 1, some (1, 1)⟩)], [(5, (1, 1))], 6⟩
      = (⟨[(5, ⟨10, 10, 1, some (1, 1)⟩)], [(5, (1, 1))], 6⟩, false))
    ∧ (move_element 5 (2, 2) ⟨[(5, ⟨10, 10, 1, some (1, 1)⟩)], [(5, (1, 1))], 6⟩).2 = true
    ∧ List.lookup 5 (move_element 5 (2, 2)
        ⟨[(5, ⟨10, 10, 1, some (1, 1)⟩)], [(5, (1, 1))], 6⟩).1.element_positions
      = some (2, 2) :=
  ⟨(move_element_absent_present ⟨[(5, ⟨10, 10, 1, some (1, 1)⟩)], [(5, (1, 1))], 6⟩
      9 (2, 2)).1 (by decide),
   ((move_element_absent_present ⟨[(5, ⟨10, 10, 1, some (1, 1)⟩)], [(5, (1, 1))], 6⟩
      5 (2, 2)).2 ⟨10, 10, 1, some (1, 1)⟩ (by decide)).1,
   ((move_element_absent_present ⟨[(5, ⟨10, 10, 1, some (1, 1)⟩)], [(5, (1, 1))], 6⟩
      5 (2, 2)).2 ⟨10, 10, 1, some (1, 1)⟩ (by decide)).2⟩

/-- C8: id allocation never reuses an identity — over any sequence of
modelled Canvas operations the ids returned by add_element are pairwise
distinct, over any sequence of LunaCanvas counter operations the ids
returned by generate_id are pairwise distinct, and the underlying
counters never decrease (add_element strictly increases its counter). -/
theorem id_allocation_never_reuses_ids :
    (∀ (c : Canvas) (ops : List CanvasOp), (emittedIds c ops).Nodup)
    ∧ (∀ (n : Nat) (gops : List GenOp), (genEmittedIds n gops).Nodup)
    ∧ (∀ (c : Canvas) (op : CanvasOp), c.next_id ≤ (applyCanvasOp c op).next_id)
    ∧ (∀ (n : Nat) (g : GenOp), n ≤ applyGenOp n g)
    ∧ (∀ (c : Canvas) (style : ElementStyle) (pos : ℚ × ℚ),
        (add_element style pos c).1.next_id = c.next_id + 1
        ∧ (add_element style pos c).2 = c.next_id) := by
  refine ⟨fun c ops => emittedIds_nodup ops c,
    fun n gops => genEmittedIds_nodup gops n,
    applyCanvasOp_next_id_mono, ?_, fun c style pos => ⟨rfl, rfl⟩⟩
  intro n g
  cases g with
  | gen => exact Nat.le_succ n
  | bumpMax k => exact Nat.le_max_left n k

/-- C6: world-transform composition. For a root (empty parent chain) the
world transform equals the local transform; for an entity with a parent,
the world transform is the full affine composition of the parent world
transform with the entity local transform; and composition applies the
parent linear part (rotation and scale) to the child translation rather
than adding translations componentwise. -/
theorem world_transform_composition :
    (∀ (T : Nat → Option LocalTransform) (e : Nat) (l : LocalTransform),
        T e = some l → compute_world_transform T e [] = some (toAffine l))
    ∧ (∀ (T : Nat → Option LocalTransform) (child par : Nat)
        (chainPar : List Nat) (lc : LocalTransform) (wp : Affine2),
        T child = some lc →
        compute_world_transform T par chainPar = some wp →
        compute_world_transform T child (par :: chainPar)
          = some (composeAffine wp (toAffine lc)))
    ∧ (∀ (w : Affine2) (l : LocalTransform),
        (composeAffine w (toAffine l)).tx = w.a * l.posX + w.b * l.posY + w.tx
        ∧ (composeAffine w (toAffine l)).ty = w.c * l.posX + w.d * l.posY + w.ty) := by
  refine ⟨?_, ?_, fun w l => ⟨rfl, rfl⟩⟩
  · intro T e l h
    simp [compute_world_transform, h, chainAffine_nil, composeAffine_idA_left]
  · intro T child par chainPar lc wp hc hp
    simp only [compute_world_transform, Option.map_eq_some'] at hp
    rcases hp with ⟨lp, hlp, hwp⟩
    simp only [compute_world_transform, hc, Option.map_some']
    rw [chainAffine_cons]
    have he : entryAffine T par = toAffine lp := by simp [entryAffine, hlp]
    rw [he, hwp]

/-- Witness for C6: a parent at (10, 10) with scale 2 and no rotation
composed with a child at local (5, 5) — the composed world translation
is (20, 20) (the parent scale acts on the child offset: 10 + 2 * 5),
which differs from the componentwise sum (15, 15) that plain vector
addition would give. -/
theorem world_transform_composition_witness :
    compute_world_transform
        (fun n => if n = 0 then some ⟨10, 10, 2, 2, 1, 0⟩ else
          if n = 1 then some ⟨5, 5, 1, 1, 1, 0⟩ else none) 1 [0]
      = some (composeAffine (composeAffine (chainAffine
          (fun n => if n = 0 then some ⟨10, 10, 2, 2, 1, 0⟩ else
            if n = 1 then some ⟨5, 5, 1, 1, 1, 0⟩ else none) []) (toAffine ⟨10, 10, 2, 2, 1, 0⟩))
          (toAffine ⟨5, 5, 1, 1, 1, 0⟩))
    ∧ (composeAffine (composeAffine (chainAffine
          (fun n => if n = 0 then some ⟨10, 10, 2, 2, 1, 0⟩ else
            if n = 1 then some ⟨5, 5, 1, 1, 1, 0⟩ else none) []) (toAffine ⟨10, 10, 2, 2, 1, 0⟩))
          (toAffine ⟨5, 5, 1, 1, 1, 0⟩)).tx = 20
    ∧ (10 : ℚ) + 5 = 15 ∧ (15 : ℚ) ≠ 20 :=
  ⟨(world_transform_composition.2.1
      (fun n => if n = 0 then some ⟨10, 10, 2, 2, 1, 0⟩ else
        if n = 1 then some ⟨5, 5, 1, 1, 1, 0⟩ else none) 1 0 []
      ⟨5, 5, 1, 1, 1, 0⟩ _ rfl rfl),
   by norm_num [composeAffine, toAffine, chainAffine, Affine2.idA],
   by norm_num, by norm_num⟩

/-- C2: hit_test_point. Whenever a parent and one of its descendants are
both indexed with bounding boxes containing the query point (the
descendant relation witnessed by membership in a rooted parent chain),
the query returns some candidate of maximal hierarchy depth among all
candidates, and that candidate is never the parent; and when no indexed
bounding box contains the point, the query returns none. -/
theorem hit_test_point_returns_deepest_candidate :
    (∀ (ecs : LunaEcs) (s : HitTestSystem) (x y : ℚ) (p d : Nat)
        (bp bd : BoundingBox),
        (p, bp) ∈ s.spatial_index.entries →
        (d, bd) ∈ s.spatial_index.entries →
        containsPoint bp x y = true →
        containsPoint bd x y = true →
        p ∈ getParentChain ecs.parent ecs.fuel d →
        reachesRoot ecs.parent ecs.fuel d = true →
        ∃ e, hit_test_point ecs s x y = some e
          ∧ e ∈ s.spatial_index.query_point x y
          ∧ (∀ e' ∈ s.spatial_index.query_point x y,
              entityDepth ecs e' ≤ entityDepth ecs e)
          ∧ e ≠ p)
    ∧ (∀ (ecs : LunaEcs) (s : HitTestSystem) (x y : ℚ),
        (∀ pb ∈ s.spatial_index.entries, containsPoint pb.2 x y = false) →
        hit_test_point ecs s x y = none) := by
  constructor
  · intro ecs s x y p d bp bd hpmem hdmem hcp hcd hanc hroot
    have hdq : d ∈ s.spatial_index.query_point x y :=
      mem_query_point.mpr ⟨bd, hdmem, hcd⟩
    have hpq : p ∈ s.spatial_index.query_point x y :=
      mem_query_point.mpr ⟨bp, hpmem, hcp⟩
    have hne : s.spatial_index.query_point x y ≠ [] := by
      intro hnil
      rw [hnil] at hdq
      exact List.not_mem_nil d hdq
    rcases hit_test_point_spec_core ecs s x y hne with ⟨e, hres, hmem, hmax⟩
    have hdepth : entityDepth ecs p < entityDepth ecs d :=
      chain_length_lt_of_mem hroot hanc
    refine ⟨e, hres, hmem, hmax, ?_⟩
    intro heq
    have h1 : entityDepth ecs d ≤ entityDepth ecs e := hmax d hdq
    rw [heq] at h1
    omega
  · intro ecs s x y hall
    apply hit_test_point_eq_none
    simp only [QuadTree.query_point]
    have : s.spatial_index.entries.filter (fun p => containsPoint p.2 x y) = [] := by
      apply List.filter_eq_nil_iff.mpr
      intro pb hpb
      simp [hall pb hpb]
    rw [this]
    rfl

/-- Witness for C2: entity 0 (a root, depth 0) and its child entity 1
(depth 1) are both indexed with boxes containing (1, 1); hit_test_point
returns a deepest candidate that is not the parent, and on boxes that
miss the point the query returns none. -/
theorem hit_test_point_returns_deepest_candidate_witness :
    (∃ e, hit_test_point ⟨fun n => if n = 1 then some 0 else none, fun _ => none, 2⟩
        ⟨⟨0, 0, 100, 100, [(0, ⟨0, 0, 3, 3⟩), (1, ⟨0, 0, 2, 2⟩)]⟩⟩ 1 1 = some e
      ∧ e ∈ (⟨⟨0, 0, 100, 100, [(0, ⟨0, 0, 3, 3⟩), (1, ⟨0, 0, 2, 2⟩)]⟩⟩ :
          HitTestSystem).spatial_index.query_point 1 1
      ∧ (∀ e' ∈ (⟨⟨0, 0, 100, 100, [(0, ⟨0, 0, 3, 3⟩), (1, ⟨0, 0, 2, 2⟩)]⟩⟩ :
          HitTestSystem).spatial_index.query_point 1 1,
          entityDepth ⟨fun n => if n = 1 then some 0 else none, fun _ => none, 2⟩ e'
            ≤ entityDepth ⟨fun n => if n = 1 then some 0 else none, fun _ => none, 2⟩ e)
      ∧ e ≠ 0)
    ∧ hit_test_point ⟨fun n => if n = 1 then some 0 else none, fun _ => none, 2⟩
        ⟨⟨0, 0, 100, 100, [(0, ⟨5, 5, 6, 6⟩)]⟩⟩ 1 1 = none :=
  ⟨hit_test_point_returns_deepest_candidate.1
      ⟨fun n => if n = 1 then some 0 else none, fun _ => none, 2⟩
      ⟨⟨0, 0, 100, 100, [(0, ⟨0, 0, 3, 3⟩), (1, ⟨0, 0, 2, 2⟩)]⟩⟩ 1 1 0 1
      ⟨0, 0, 3, 3⟩ ⟨0, 0, 2, 2⟩ (by decide) (by decide) (by decide) (by decide)
      (by decide) (by decide),
   hit_test_point_returns_deepest_candidate.2
      ⟨fun n => if n = 1 then some 0 else none, fun _ => none, 2⟩
      ⟨⟨0, 0, 100, 100, [(0, ⟨5, 5, 6, 6⟩)]⟩⟩ 1 1 (by decide)⟩

/-- C3: hit_test_region returns exactly the entities whose indexed
bounding boxes overlap the query rectangle, ordered by descending
hierarchy depth, with no entity repeated when the index stores each
entity at most once. -/
theorem hit_test_region_exact_and_depth_sorted :
    ∀ (ecs : LunaEcs) (s : HitTestSystem) (x y w h : ℚ),
      (∀ e, e ∈ hit_test_region ecs s x y w h ↔
          ∃ b, (e, b) ∈ s.spatial_index.entries ∧ overlapsRegion b x y w h = true)
      ∧ List.Pairwise (fun a b => entityDepth ecs b ≤ entityDepth ecs a)
          (hit_test_region ecs s x y w h)
      ∧ ((s.spatial_index.entries.map Prod.fst).Nodup →
          (hit_test_region ecs s x y w h).Nodup) := by
  intro ecs s x y w h
  refine ⟨fun e => hit_test_region_mem.trans mem_query_region,
    hit_test_region_pairwise ecs s x y w h, fun hn => ?_⟩
  have hq : (s.spatial_index.query_region x y w h).Nodup :=
    query_region_nodup _ _ _ _ _ hn
  have hperm : List.Perm (hit_test_region ecs s x y w h)
      (s.spatial_index.query_region x y w h) := by
    simp only [hit_test_region]
    have h1 := sortDepthDesc_perm
      ((s.spatial_index.query_region x y w h).map (fun e => (e, entityDepth ecs e)))
    have h2 := h1.map (fun p : Nat × Nat => p.1)
    refine h2.trans ?_
    rw [List.map_map]
    have : ((fun p : Nat × Nat => p.1) ∘ (fun e => (e, entityDepth ecs e))) = id := rfl
    rw [this, List.map_id]
  exact hperm.nodup_iff.mpr hq

/-- Witness for C3: two disjoint unit boxes at (10, 10) and (20, 20);
the region (0, 0)-(30, 30) reports both entities in depth order with no
duplicates, membership matching exactly the overlap condition. -/
theorem hit_test_region_exact_and_depth_sorted_witness :
    ((5 : Nat) ∈ hit_test_region ⟨fun _ => none, fun _ => none, 1⟩
        ⟨⟨0, 0, 100, 100, [(5, ⟨10, 10, 11, 11⟩), (7, ⟨20, 20, 21, 21⟩)]⟩⟩ 0 0 30 30 ↔
      ∃ b, ((5 : Nat), b) ∈ [((5 : Nat), (⟨10, 10, 11, 11⟩ : BoundingBox)),
          (7, ⟨20, 20, 21, 21⟩)] ∧ overlapsRegion b 0 0 30 30 = true)
    ∧ (hit_test_region ⟨fun _ => none, fun _ => none, 1⟩
        ⟨⟨0, 0, 100, 100, [(5, ⟨10, 10, 11, 11⟩), (7, ⟨20, 20, 21, 21⟩)]⟩⟩ 0 0 30 30).Nodup :=
  ⟨((hit_test_region_exact_and_depth_sorted ⟨fun _ => none, fun _ => none, 1⟩
      ⟨⟨0, 0, 100, 100, [(5, ⟨10, 10, 11, 11⟩), (7, ⟨20, 20, 21, 21⟩)]⟩⟩ 0 0 30 30).1 5),
   ((hit_test_region_exact_and_depth_sorted ⟨fun _ => none, fun _ => none, 1⟩
      ⟨⟨0, 0, 100, 100, [(5, ⟨10, 10, 11, 11⟩), (7, ⟨20, 20, 21, 21⟩)]⟩⟩ 0 0 30 30).2.2
      (by decide))⟩
